import Mathlib

/-!
Verification development for the `puebi` Indonesian text-normalization
library (`src/puebi/puebi.go`).  Strings are embedded as `List Char`
(Go works on `[]rune`).  The Unicode classification functions of Go's
`unicode` package (`IsLetter`, `IsUpper`, `IsLower`, `IsSpace`,
`ToLower`, `ToUpper`) are abstracted as a parameter structure `CharM`;
the concrete instance `asciiM` is the ASCII fragment of Go's tables,
which agrees with Go on every ASCII input (all concrete inputs below
are ASCII).  Character classes of Go's `regexp` package (`\w` for
word boundaries, `\s`, `\d`) are ASCII-defined in Go itself and are
therefore embedded as fixed ASCII predicates, independent of `CharM`.
Each `regexp.ReplaceAllString` call of the source is embedded as a
left-to-right scan (`replaceScan`) with a matcher specialized to that
one pattern, mirroring Go's leftmost, non-overlapping replacement
semantics on the original text.
-/

set_option maxRecDepth 20000

/-- Abstraction of the `unicode` package functions used by the source. -/
structure CharM where
  isLetter : Char → Bool
  isUpper : Char → Bool
  isLower : Char → Bool
  isSpace : Char → Bool
  toLower : Char → Char
  toUpper : Char → Char

/-- ASCII fragment of Go's `unicode` tables: letters are A-Z and a-z,
`ToLower`/`ToUpper` shift by 32 within ASCII, `IsSpace` accepts the six
ASCII whitespace characters recognized by `unicode.IsSpace`. -/
def asciiM : CharM where
  isLetter c := (65 ≤ c.toNat && c.toNat ≤ 90) || (97 ≤ c.toNat && c.toNat ≤ 122)
  isUpper c := 65 ≤ c.toNat && c.toNat ≤ 90
  isLower c := 97 ≤ c.toNat && c.toNat ≤ 122
  isSpace c := c.toNat = 32 || c.toNat = 9 || c.toNat = 10 || c.toNat = 11 || c.toNat = 12 || c.toNat = 13
  toLower c := if 65 ≤ c.toNat && c.toNat ≤ 90 then Char.ofNat (c.toNat + 32) else c
  toUpper c := if 97 ≤ c.toNat && c.toNat ≤ 122 then Char.ofNat (c.toNat - 32) else c

/-- Named characters (kept as `Char.ofNat` codes for the few
punctuation characters the source's regexes mention). -/
def spCh : Char := Char.ofNat 32
def tabCh : Char := Char.ofNat 9
def nlCh : Char := Char.ofNat 10
def crCh : Char := Char.ofNat 13
def dotCh : Char := Char.ofNat 46
def commaCh : Char := Char.ofNat 44
def semiCh : Char := Char.ofNat 59
def colonCh : Char := Char.ofNat 58
def bangCh : Char := Char.ofNat 33
def questCh : Char := Char.ofNat 63
def lparenCh : Char := Char.ofNat 40
def rparenCh : Char := Char.ofNat 41
def lbrackCh : Char := Char.ofNat 91
def rbrackCh : Char := Char.ofNat 93
def quotCh : Char := Char.ofNat 34
def aposCh : Char := Char.ofNat 39
def dashCh : Char := Char.ofNat 45
def hellipCh : Char := Char.ofNat 8230
def emdashCh : Char := Char.ofNat 8212
def guillCh : Char := Char.ofNat 187

/-- Go `regexp` word characters `\w` = `[0-9A-Za-z_]` (ASCII by definition). -/
def isWordChar (c : Char) : Bool :=
  (48 ≤ c.toNat && c.toNat ≤ 57) || (65 ≤ c.toNat && c.toNat ≤ 90) ||
    (97 ≤ c.toNat && c.toNat ≤ 122) || c.toNat = 95

/-- Go `regexp` whitespace `\s` = `[\t\n\f\r ]`. -/
def isRegexSpace (c : Char) : Bool :=
  c.toNat = 32 || c.toNat = 9 || c.toNat = 10 || c.toNat = 12 || c.toNat = 13

/-- Go `regexp` digits `\d` = `[0-9]`. -/
def isDigitCh (c : Char) : Bool := 48 ≤ c.toNat && c.toNat ≤ 57

/-- ASCII lowering used for the `(?i)` flag of Go regexes. -/
def lowerAscii (c : Char) : Char :=
  if 65 ≤ c.toNat && c.toNat ≤ 90 then Char.ofNat (c.toNat + 32) else c

/-- Case-insensitive character comparison for `(?i)` patterns. -/
def ciEq (a b : Char) : Bool := lowerAscii a = lowerAscii b

/-- Does `l` start with the literal `p` (case-insensitively)? -/
def startsWithCI : List Char → List Char → Bool
  | [], _ => true
  | _ :: _, [] => false
  | p :: ps, c :: cs => ciEq p c && startsWithCI ps cs

/-- Does `l` start with the literal `p` (case-sensitively)? -/
def startsWithLit : List Char → List Char → Bool
  | [], _ => true
  | _ :: _, [] => false
  | p :: ps, c :: cs => (p = c) && startsWithLit ps cs

/-- Word boundary `\b` before a match that begins with a word character:
the preceding original character must be absent or not a word character. -/
def nonWord : Option Char → Bool
  | none => true
  | some c => !isWordChar c

/-- Word boundary `\b` after a match that ends with a word character:
the following text must be empty or start with a non-word character. -/
def boundaryAfter : List Char → Bool
  | [] => true
  | c :: _ => !isWordChar c

/-- Length of the maximal prefix satisfying `p`. -/
def countWhile (p : Char → Bool) : List Char → Nat
  | [] => 0
  | c :: rest => if p c then countWhile p rest + 1 else 0

/-- First element check. -/
def headIs (p : Char → Bool) : List Char → Bool
  | [] => false
  | c :: _ => p c

/-- Generic replacement scanner embedding `Regexp.ReplaceAllString`:
at each original position the matcher `f` receives the previous original
character (`none` at the start of the text) and the remaining text; it
returns `some (n, rep)` when a match of length `n + 1` starts here, in
which case `rep` is emitted and scanning resumes after the match, else
the character is copied.  Fuel is the text length; every match consumes
at least one character, so the fuel never runs out. -/
def replaceScanAux (f : Option Char → List Char → Option (Nat × List Char)) :
    Nat → Option Char → List Char → List Char
  | 0, _, l => l
  | _ + 1, _, [] => []
  | fuel + 1, prev, c :: rest =>
    match f prev (c :: rest) with
    | some (n, rep) =>
      rep ++ replaceScanAux f fuel (some ((c :: rest).getD n c)) (rest.drop n)
    | none => c :: replaceScanAux f fuel (some c) rest

/-- Run one regex-replacement pass over the whole text. -/
def replaceScan (f : Option Char → List Char → Option (Nat × List Char))
    (l : List Char) : List Char :=
  replaceScanAux f l.length none l

/-- Matcher for `reMultiWS`: pattern `\s+`, replacement a single space. -/
def mMultiWS (_ : Option Char) (l : List Char) : Option (Nat × List Char) :=
  match l with
  | [] => none
  | c :: _ =>
    if isRegexSpace c then some (countWhile isRegexSpace l - 1, [spCh]) else none

/-- Matcher for `reSpaceBeforePunct`: pattern `\s+([,.;:!?])`, replacement `$1`. -/
def mSpaceBeforePunct (_ : Option Char) (l : List Char) : Option (Nat × List Char) :=
  match l with
  | [] => none
  | c :: _ =>
    if isRegexSpace c then
      let r := countWhile isRegexSpace l
      match l.drop r with
      | p :: _ =>
        if p = commaCh || p = dotCh || p = semiCh || p = colonCh || p = bangCh || p = questCh then
          some (r, [p])
        else none
      | [] => none
    else none

/-- Matcher for `reMultiDots`: pattern `[.]{3,}|…`, replacement `...`. -/
def mMultiDots (_ : Option Char) (l : List Char) : Option (Nat × List Char) :=
  match l with
  | [] => none
  | c :: _ =>
    if c = hellipCh then some (0, [dotCh, dotCh, dotCh])
    else if c = dotCh then
      let r := countWhile (fun x => x = dotCh) l
      if 3 ≤ r then some (r - 1, [dotCh, dotCh, dotCh]) else none
    else none

/-- Character class `[^ \t\n\r(\["']` of `reEllipsisNoLeftSp`. -/
def ellLeftClass (c : Char) : Bool :=
  !(c = spCh || c = tabCh || c = nlCh || c = crCh || c = lparenCh || c = lbrackCh ||
    c = quotCh || c = aposCh)

/-- Matcher for `reEllipsisNoLeftSp`: pattern `([^ \t\n\r(\["'])\.{3}`,
replacement `$1 ...`. -/
def mEllLeft (_ : Option Char) (l : List Char) : Option (Nat × List Char) :=
  match l with
  | [] => none
  | c :: rest =>
    if ellLeftClass c && startsWithLit [dotCh, dotCh, dotCh] rest then
      some (3, [c, spCh, dotCh, dotCh, dotCh])
    else none

/-- Character class `[^ \t\n\r)\]"'».,;:!?]` of `reEllipsisNoRightSp`. -/
def ellRightClass (c : Char) : Bool :=
  !(c = spCh || c = tabCh || c = nlCh || c = crCh || c = rparenCh || c = rbrackCh ||
    c = quotCh || c = aposCh || c = guillCh || c = dotCh || c = commaCh || c = semiCh ||
    c = colonCh || c = bangCh || c = questCh)

/-- Matcher for `reEllipsisNoRightSp`: pattern `\.{3}([^ \t\n\r)\]"'».,;:!?])`,
replacement `... $1`. -/
def mEllRight (_ : Option Char) (l : List Char) : Option (Nat × List Char) :=
  if startsWithLit [dotCh, dotCh, dotCh] l then
    match l.drop 3 with
    | x :: _ =>
      if ellRightClass x then some (3, [dotCh, dotCh, dotCh, spCh, x]) else none
    | [] => none
  else none

/-- Matcher for `reCommaSemiColonEtcSpace`: pattern `([,;:!?])([^\s\)])`,
replacement `$1 $2`. -/
def mCommaSp (_ : Option Char) (l : List Char) : Option (Nat × List Char) :=
  match l with
  | [] => none
  | c :: rest =>
    if c = commaCh || c = semiCh || c = colonCh || c = bangCh || c = questCh then
      match rest with
      | x :: _ =>
        if !isRegexSpace x && x ≠ rparenCh then some (1, [c, spCh, x]) else none
      | [] => none
    else none

/-- Character class `[^\d\s\).]` of `reDotSentenceSpace`. -/
def dotSentClass (c : Char) : Bool :=
  !isDigitCh c && !isRegexSpace c && c ≠ rparenCh && c ≠ dotCh

/-- Matcher for `reDotSentenceSpace`: pattern `(^|[^\d])\.([^\d\s\).])`,
replacement `$1. $2`; the `^` alternative applies only at the very start
of the text (`prev = none`). -/
def mDotSent (prev : Option Char) (l : List Char) : Option (Nat × List Char) :=
  let caseStart : Option (Nat × List Char) :=
    match prev, l with
    | none, c :: x :: _ =>
      if c = dotCh && dotSentClass x then some (1, [dotCh, spCh, x]) else none
    | _, _ => none
  match caseStart with
  | some r => some r
  | none =>
    match l with
    | c :: d :: x :: _ =>
      if !isDigitCh c && d = dotCh && dotSentClass x then
        some (2, [c, dotCh, spCh, x])
      else none
    | _ => none

/-- Matcher for `reOpenParenSpaces`: pattern `\(\s+`, replacement `(`. -/
def mOpenParen (_ : Option Char) (l : List Char) : Option (Nat × List Char) :=
  match l with
  | c :: rest =>
    if c = lparenCh then
      let r := countWhile isRegexSpace rest
      if 1 ≤ r then some (r, [lparenCh]) else none
    else none
  | [] => none

/-- Matcher for `reCloseParenSpaces`: pattern `\s+\)`, replacement `)`. -/
def mCloseParen (_ : Option Char) (l : List Char) : Option (Nat × List Char) :=
  match l with
  | c :: _ =>
    if isRegexSpace c then
      let r := countWhile isRegexSpace l
      if headIs (fun x => x = rparenCh) (l.drop r) then some (r, [rparenCh]) else none
    else none
  | [] => none

/-- Matcher for `reSpaceBeforeCloseQuote`: pattern `\s+(['"])`, replacement `$1`. -/
def mSpBeforeQuote (_ : Option Char) (l : List Char) : Option (Nat × List Char) :=
  match l with
  | c :: _ =>
    if isRegexSpace c then
      let r := countWhile isRegexSpace l
      match l.drop r with
      | q :: _ => if q = aposCh || q = quotCh then some (r, [q]) else none
      | [] => none
    else none
  | [] => none

/-- Matcher for `reSpaceAfterOpenQuote`: pattern `(['"])\s+`, replacement `$1`. -/
def mSpAfterQuote (_ : Option Char) (l : List Char) : Option (Nat × List Char) :=
  match l with
  | c :: rest =>
    if c = aposCh || c = quotCh then
      let r := countWhile isRegexSpace rest
      if 1 ≤ r then some (r, [c]) else none
    else none
  | [] => none

/-- Matcher for `reDashTighten`: pattern `\s*—\s*`, replacement `—`. -/
def mDash (_ : Option Char) (l : List Char) : Option (Nat × List Char) :=
  match l with
  | c :: rest =>
    if c = emdashCh then
      some (countWhile isRegexSpace rest, [emdashCh])
    else if isRegexSpace c then
      let r := countWhile isRegexSpace l
      match l.drop r with
      | d :: after =>
        if d = emdashCh then some (r + countWhile isRegexSpace after, [emdashCh])
        else none
      | [] => none
    else none
  | [] => none

/-- `normalizeSpaces` of the source: collapse whitespace runs, then drop
whitespace before closing punctuation. -/
def normalizeSpaces (s : List Char) : List Char :=
  replaceScan mSpaceBeforePunct (replaceScan mMultiWS s)

/-- `fixPunctuationSpacing` of the source: the eight regex passes in
source order. -/
def fixPunctuationSpacing (s : List Char) : List Char :=
  let s := replaceScan mSpaceBeforePunct s
  let s := replaceScan mMultiDots s
  let s := replaceScan mEllLeft s
  let s := replaceScan mEllRight s
  let s := replaceScan mCommaSp s
  let s := replaceScan mDotSent s
  let s := replaceScan mOpenParen s
  let s := replaceScan mCloseParen s
  let s := replaceScan mSpBeforeQuote s
  let s := replaceScan mSpAfterQuote s
  let s := replaceScan mDash s
  replaceScan mMultiWS s

/-- Matcher for a case-sensitive literal word with `\b` on both sides
(all literals used start and end with letters). -/
def mLitWord (lit rep : List Char) (prev : Option Char) (l : List Char) :
    Option (Nat × List Char) :=
  if nonWord prev && startsWithLit lit l && boundaryAfter (l.drop lit.length) then
    some (lit.length - 1, rep)
  else none

/-- One `ReplaceAllString` pass for a literal word pattern. -/
def replaceLitWord (lit rep : List Char) (s : List Char) : List Char :=
  replaceScan (mLitWord lit rep) s

/-- Matcher for a two-alternative literal word pattern such as
`\b[Kk]e pada\b` (both alternatives start and end with letters). -/
def mLitWord2 (lit1 lit2 rep : List Char) (prev : Option Char) (l : List Char) :
    Option (Nat × List Char) :=
  match mLitWord lit1 rep prev l with
  | some r => some r
  | none => mLitWord lit2 rep prev l

/-- `fixCommonPrepositions` of the source: the glued-preposition passes
in source order (for each word: `di` then `ke`), then `kepada` and
`daripada`, then the `di`-only phrase words. -/
def fixCommonPrepositions (s : List Char) : List Char :=
  let locatives := ["luar", "dalam", "atas", "bawah", "depan", "belakang", "samping", "antara"]
  let places := ["rumah", "kantor", "sekolah", "pasar", "bank", "jalan", "masjid", "gereja", "kampus"]
  let phrases := ["tiap", "setiap", "mana", "sini", "situ", "sana"]
  let s := locatives.foldl (fun s w =>
    replaceLitWord ("ke".toList ++ w.toList) ("ke ".toList ++ w.toList)
      (replaceLitWord ("di".toList ++ w.toList) ("di ".toList ++ w.toList) s)) s
  let s := places.foldl (fun s w =>
    replaceLitWord ("ke".toList ++ w.toList) ("ke ".toList ++ w.toList)
      (replaceLitWord ("di".toList ++ w.toList) ("di ".toList ++ w.toList) s)) s
  let s := replaceScan (mLitWord2 "Ke pada".toList "ke pada".toList "kepada".toList) s
  let s := replaceScan (mLitWord2 "Dari pada".toList "dari pada".toList "daripada".toList) s
  phrases.foldl (fun s w =>
    replaceLitWord ("di".toList ++ w.toList) ("di ".toList ++ w.toList) s) s

/-- Matcher for `reRealTimeGeneric`: pattern `(?i)\bReal[ -]?Time\b`,
replacement `real time`; the optional separator is tried greedily first. -/
def mRealTime (prev : Option Char) (l : List Char) : Option (Nat × List Char) :=
  if nonWord prev && startsWithCI "real".toList l then
    let l4 := l.drop 4
    let withSep : Option (Nat × List Char) :=
      match l4 with
      | c :: rest4 =>
        if (c = spCh || c = dashCh) && startsWithCI "time".toList rest4 &&
            boundaryAfter (l.drop 9) then
          some (8, "real time".toList)
        else none
      | [] => none
    match withSep with
    | some r => some r
    | none =>
      if startsWithCI "time".toList l4 && boundaryAfter (l.drop 8) then
        some (7, "real time".toList)
      else none
  else none

/-- Matcher for `reTransferRealTime`: pattern `(?i)\bTransfer\s+real time\b`,
replacement `transfer real time`. -/
def mTransferRT (prev : Option Char) (l : List Char) : Option (Nat × List Char) :=
  if nonWord prev && startsWithCI "transfer".toList l then
    let l8 := l.drop 8
    let r := countWhile isRegexSpace l8
    if 1 ≤ r && startsWithCI "real time".toList (l8.drop r) &&
        boundaryAfter (l8.drop (r + 9)) then
      some (16 + r, "transfer real time".toList)
    else none
  else none

/-- `normalizeRealTime` of the source. -/
def normalizeRealTime (s : List Char) : List Char :=
  replaceScan mTransferRT (replaceScan mRealTime s)

/-- Matcher for `reRpNumber`: pattern `(?i)\brp\.?\s+([0-9])`,
replacement `Rp$1`; the optional dot is tried greedily first. -/
def mRpNum (prev : Option Char) (l : List Char) : Option (Nat × List Char) :=
  if nonWord prev && startsWithCI "rp".toList l then
    let l2 := l.drop 2
    let withDot : Option (Nat × List Char) :=
      match l2 with
      | d :: l3 =>
        if d = dotCh then
          let r := countWhile isRegexSpace l3
          match l3.drop r with
          | x :: _ =>
            if 1 ≤ r && isDigitCh x then some (3 + r, "Rp".toList ++ [x]) else none
          | [] => none
        else none
      | [] => none
    match withDot with
    | some res => some res
    | none =>
      let r := countWhile isRegexSpace l2
      match l2.drop r with
      | x :: _ =>
        if 1 ≤ r && isDigitCh x then some (2 + r, "Rp".toList ++ [x]) else none
      | [] => none
  else none

/-- Matcher for `reRpNoSpace`: pattern `(?i)\brp([0-9])`, replacement `Rp$1`. -/
def mRpNoSp (prev : Option Char) (l : List Char) : Option (Nat × List Char) :=
  if nonWord prev && startsWithCI "rp".toList l then
    match l.drop 2 with
    | x :: _ => if isDigitCh x then some (2, "Rp".toList ++ [x]) else none
    | [] => none
  else none

/-- `fixIDRCurrency` of the source. -/
def fixIDRCurrency (s : List Char) : List Char :=
  replaceScan mRpNoSp (replaceScan mRpNum s)

/-- `titleWord` of the source: first rune uppered, the rest lowered. -/
def titleWord (M : CharM) : List Char → List Char
  | [] => []
  | c :: rest => M.toUpper c :: rest.map M.toLower

/-- `strings.SplitN(m, " ", 2)`: split at the first plain space; `none`
when there is no space (the `len(parts) < 2` case of the source). -/
def splitFirstSpace : List Char → Option (List Char × List Char)
  | [] => none
  | c :: rest =>
    if c = spCh then some ([], rest)
    else
      match splitFirstSpace rest with
      | none => none
      | some (a, b) => some (c :: a, b)

/-- Helper for `strings.Fields` (fueled; fuel is the text length). -/
def fieldsAux (M : CharM) : Nat → List Char → List (List Char)
  | 0, _ => []
  | _ + 1, [] => []
  | fuel + 1, c :: rest =>
    if M.isSpace c then fieldsAux M fuel rest
    else
      (c :: rest).takeWhile (fun x => !M.isSpace x) ::
        fieldsAux M fuel ((c :: rest).dropWhile (fun x => !M.isSpace x))

/-- `strings.Fields`: maximal runs of non-whitespace. -/
def fields (M : CharM) (s : List Char) : List (List Char) := fieldsAux M s.length s

/-- `strings.Join(tokens, " ")`. -/
def joinSpace : List (List Char) → List Char
  | [] => []
  | [t] => t
  | t :: rest => t ++ spCh :: joinSpace rest

/-- The `allLetter` test of `fixGreetingNameCase`: every rune a letter,
apostrophe, or hyphen. -/
def allLetterTok (M : CharM) (t : List Char) : Bool :=
  t.all (fun r => M.isLetter r || r = aposCh || r = dashCh)

/-- Index-aware map used to rewrite the first `limit` name tokens. -/
def mapIdxAux (f : Nat → List Char → List Char) (i : Nat) :
    List (List Char) → List (List Char)
  | [] => []
  | t :: rest => f i t :: mapIdxAux f (i + 1) rest

/-- The replacement function of `fixGreetingNameCase`'s
`ReplaceAllStringFunc`: split the match as `head ++ " " ++ rest`,
tokenize `rest` with `Fields`, title-case the first up to four tokens
that are all letters/apostrophes/hyphens, and re-join with single spaces. -/
def greetFunc (M : CharM) (m : List Char) : List Char :=
  match splitFirstSpace m with
  | none => m
  | some (head, rest) =>
    let toks := fields M rest
    match toks with
    | [] => m
    | _ :: _ =>
      let limit := min toks.length 4
      let toks2 := mapIdxAux
        (fun i t => if i < limit && allLetterTok M t then titleWord M t else t) 0 toks
      head ++ spCh :: joinSpace toks2

/-- Character class `[^\n\r,.!?;:()]` of the greeting regex. -/
def greetClass (c : Char) : Bool :=
  !(c = nlCh || c = crCh || c = commaCh || c = dotCh || c = bangCh || c = questCh ||
    c = semiCh || c = colonCh || c = lparenCh || c = rparenCh)

/-- Backtracking search for the greeting match: `\s+` prefers `j` spaces
from the maximal run downward; the captured group must be nonempty. -/
def greetTry (M : CharM) (l l3 : List Char) : Nat → Option (Nat × List Char)
  | 0 => none
  | j + 1 =>
    let g := countWhile greetClass (l3.drop (j + 1))
    if 1 ≤ g then
      let total := 3 + (j + 1) + g
      some (total - 1, greetFunc M (l.take total))
    else greetTry M l l3 j

/-- Matcher for the greeting regex `\bHai\b\s+([^\n\r,.!?;:()]+)` of
`fixGreetingNameCase` (the trailing `\b` of `Hai` is subsumed by `\s+`
since every regex space is a non-word character). -/
def mGreet (M : CharM) (prev : Option Char) (l : List Char) : Option (Nat × List Char) :=
  if nonWord prev && startsWithLit "Hai".toList l then
    let l3 := l.drop 3
    let r := countWhile isRegexSpace l3
    if r = 0 then none else greetTry M l l3 r
  else none

/-- `fixGreetingNameCase` of the source. -/
def fixGreetingNameCase (M : CharM) (s : List Char) : List Char :=
  replaceScan (mGreet M) s

/-- `firstLetterIndex`'s scanning loop: first index (absolute, starting
at `i`) of a letter in `l`. -/
def firstLetterFrom (M : CharM) : List Char → Nat → Option Nat
  | [], _ => none
  | c :: rest, i => if M.isLetter c then some i else firstLetterFrom M rest (i + 1)

/-- `firstLetterIndex(r, start)` of the source (`-1` becomes `none`). -/
def firstLetterIndex (M : CharM) (r : List Char) (start : Nat) : Option Nat :=
  firstLetterFrom M (r.drop start) start

/-- The sentence-terminal test `r == '.' || r == '!' || r == '?'` used by
both `capitalizeSentences` and `decapitalizeMidSentence`. -/
def isSentenceEndCh (c : Char) : Bool := c = dotCh || c = bangCh || c = questCh

/-- The index loop of `capitalizeSentences`: after every terminal mark,
uppercase the next letter (in the evolving rune array).  Fueled by the
(unchanging) length of the array. -/
def capAux (M : CharM) : Nat → Nat → List Char → List Char
  | 0, _, r => r
  | fuel + 1, idx, r =>
    if idx < r.length then
      let r2 :=
        if isSentenceEndCh (r.getD idx spCh) then
          match firstLetterIndex M r (idx + 1) with
          | some j => r.set j (M.toUpper (r.getD j spCh))
          | none => r
        else r
      capAux M fuel (idx + 1) r2
    else r

/-- `capitalizeSentences` of the source. -/
def capitalizeSentences (M : CharM) (s : List Char) : List Char :=
  let r :=
    match firstLetterIndex M s 0 with
    | some i => s.set i (M.toUpper (s.getD i spCh))
    | none => s
  capAux M r.length 0 r

/-- `strings.TrimSpace` (on runes). -/
def trimSpace (M : CharM) (s : List Char) : List Char :=
  ((s.dropWhile M.isSpace).reverse.dropWhile M.isSpace).reverse

/-- The `isAllCaps` closure of `decapitalizeMidSentence`: `has` records
whether a letter has been seen; a non-uppercase letter fails immediately. -/
def isAllCapsAux (M : CharM) (has : Bool) : List Char → Bool
  | [] => has
  | r :: rest =>
    if M.isLetter r then
      if M.isUpper r then isAllCapsAux M true rest else false
    else isAllCapsAux M has rest

/-- `isAllCaps` of the source. -/
def isAllCaps (M : CharM) (runes : List Char) : Bool := isAllCapsAux M false runes

/-- `isTitleCase` of the source: nonempty, first rune uppercase, every
later letter lowercase. -/
def isTitleCase (M : CharM) : List Char → Bool
  | [] => false
  | r :: rest => M.isUpper r && rest.all (fun c => !(M.isLetter c) || M.isLower c)

/-- The word-tokenization loop of `decapitalizeMidSentence`: maximal runs
of letters as half-open index ranges, scanning from absolute index `k`
(fueled by the text length). -/
def tokenizeAux (M : CharM) : Nat → Nat → List Char → List (Nat × Nat)
  | 0, _, _ => []
  | _ + 1, _, [] => []
  | fuel + 1, k, c :: rest =>
    if M.isLetter c then
      let run := countWhile M.isLetter (c :: rest)
      (k, k + run) :: tokenizeAux M fuel (k + run) ((c :: rest).drop run)
    else tokenizeAux M fuel (k + 1) rest

/-- Word tokens of one sentence. -/
def tokenize (M : CharM) (kal : List Char) : List (Nat × Nat) :=
  tokenizeAux M kal.length 0 kal

/-- `kal[start:end]` as a list slice. -/
def sliceL (l : List Char) (a b : Nat) : List Char := (l.drop a).take (b - a)

/-- Helper: apply `f` to the characters at indices `[a, b)` (current
index `i`), leaving the rest unchanged. -/
def mapRangeAux (f : Char → Char) (a b : Nat) : Nat → List Char → List Char
  | _, [] => []
  | i, c :: rest => (if a ≤ i ∧ i < b then f c else c) :: mapRangeAux f a b (i + 1) rest

/-- In-place rewrite `for t := start; t < end; t++ kal[t] = ToLower(kal[t])`
modelled as a range map. -/
def mapRange (f : Char → Char) (a b : Nat) (l : List Char) : List Char :=
  mapRangeAux f a b 0 l

/-- One iteration of the `wi` loop of `decapitalizeMidSentence` for
`wi > 0`: skip ALL-CAPS words and exact exceptions, skip words whose
(current) predecessor text is a protected head, lower TitleCase words. -/
def stepWord (M : CharM) (exc heads : String → Bool) (kal : List Char)
    (prev cur : Nat × Nat) : List Char :=
  let wordRunes := sliceL kal cur.1 cur.2
  if isAllCaps M wordRunes || exc (String.mk wordRunes) then kal
  else if heads (String.mk (sliceL kal prev.1 prev.2)) then kal
  else if isTitleCase M wordRunes then mapRange M.toLower cur.1 cur.2 kal
  else kal

/-- The `wi` loop from index 1 on: each word is processed against the
current (already partially rewritten) sentence array. -/
def processWords (M : CharM) (exc heads : String → Bool) :
    (Nat × Nat) → List (Nat × Nat) → List Char → List Char
  | _, [], kal => kal
  | prev, cur :: rest, kal =>
    processWords M exc heads cur rest (stepWord M exc heads kal prev cur)

/-- Processing of one sentence: tokenize, skip word 0, run the loop. -/
def decapSentence (M : CharM) (exc heads : String → Bool) (kal : List Char) : List Char :=
  match tokenize M kal with
  | [] => kal
  | w0 :: rest => processWords M exc heads w0 rest kal

/-- The sentence loop of `decapitalizeMidSentence`: split at the first
terminal mark, process the sentence, copy the terminal and following
whitespace verbatim, continue (fueled by the text length). -/
def decapAux (M : CharM) (exc heads : String → Bool) : Nat → List Char → List Char
  | 0, l => l
  | _ + 1, [] => []
  | fuel + 1, rs =>
    let kal := rs.takeWhile (fun c => !isSentenceEndCh c)
    let rest := rs.dropWhile (fun c => !isSentenceEndCh c)
    let processed := decapSentence M exc heads kal
    match rest with
    | [] => processed
    | d :: t =>
      let sps := t.takeWhile M.isSpace
      let t2 := t.dropWhile M.isSpace
      processed ++ d :: (sps ++ decapAux M exc heads fuel t2)

/-- `decapitalizeMidSentence` of the source. -/
def decapitalizeMidSentence (M : CharM) (exc heads : String → Bool)
    (s : List Char) : List Char :=
  decapAux M exc heads s.length s

/-- `protectedHeads` of the source. -/
def protectedHeads (w : String) : Bool :=
  ["Jalan", "Gunung", "Sungai", "Danau", "Kota", "Provinsi", "Universitas",
    "Institut", "Sekolah", "Rumah", "Bank", "PT", "CV", "RS", "Hai"].contains w

/-- `defaultExceptions` of the source. -/
def defaultExceptions (w : String) : Bool :=
  ["Indonesia", "Jakarta", "Sahabat", "Sampoerna", "Call", "Center", "ATM",
    "KTP", "BI", "BNI", "BCA"].contains w

/-- `SanitizeToPUEBI` of the source: the full pipeline in source order. -/
def SanitizeToPUEBI (M : CharM) (s : List Char) : List Char :=
  if trimSpace M s = [] then s
  else
    trimSpace M (fixIDRCurrency
      (decapitalizeMidSentence M defaultExceptions protectedHeads
        (fixGreetingNameCase M
          (capitalizeSentences M
            (normalizeRealTime
              (fixCommonPrepositions
                (fixPunctuationSpacing
                  (normalizeSpaces s))))))))

/-- `IsSentenceCapitalized` of the source (the dead `DecodeRuneInString`
tail of the Go function returns `true`). -/
def IsSentenceCapitalized (M : CharM) (s : List Char) : Bool :=
  let t := trimSpace M s
  if t = [] then true
  else
    match firstLetterIndex M t 0 with
    | some i => M.isUpper (t.getD i spCh)
    | none => true

/-- Substring test used to state scenario claims. -/
def containsSub (pat : List Char) : List Char → Bool
  | [] => startsWithLit pat []
  | c :: rest => startsWithLit pat (c :: rest) || containsSub pat rest

/-! ### Basic lemmas about the helper functions -/

theorem countWhile_le_length (p : Char → Bool) : ∀ l : List Char, countWhile p l ≤ l.length
  | [] => Nat.le_refl 0
  | c :: rest => by
    simp only [countWhile, List.length_cons]
    split
    · exact Nat.succ_le_succ (countWhile_le_length p rest)
    · exact Nat.zero_le _

theorem countWhile_getD (p : Char → Bool) (d : Char) :
    ∀ (l : List Char) (j : Nat), j < countWhile p l → p (l.getD j d) = true
  | [], j, h => by simp [countWhile] at h
  | c :: rest, j, h => by
    by_cases hc : p c = true
    · cases j with
      | zero => simpa using hc
      | succ j' =>
        simp only [countWhile, hc, if_true] at h
        exact countWhile_getD p d rest j' (by omega)
    · simp [countWhile, hc] at h

theorem countWhile_cons_pos {p : Char → Bool} {c : Char} (rest : List Char)
    (h : p c = true) : 1 ≤ countWhile p (c :: rest) := by
  simp [countWhile, h]

theorem length_mapRangeAux (f : Char → Char) (a b : Nat) :
    ∀ (i : Nat) (l : List Char), (mapRangeAux f a b i l).length = l.length
  | _, [] => rfl
  | i, c :: rest => by
    simp [mapRangeAux, length_mapRangeAux f a b (i + 1) rest]

theorem length_mapRange (f : Char → Char) (a b : Nat) (l : List Char) :
    (mapRange f a b l).length = l.length := length_mapRangeAux f a b 0 l

theorem getD_mapRangeAux (f : Char → Char) (a b : Nat) (d : Char) :
    ∀ (l : List Char) (i j : Nat),
      (mapRangeAux f a b i l).getD j d =
        if a ≤ i + j ∧ i + j < b ∧ j < l.length then f (l.getD j d) else l.getD j d
  | [], i, j => by simp [mapRangeAux]
  | c :: rest, i, 0 => by
    simp only [mapRangeAux, List.getD_cons_zero, List.length_cons, Nat.add_zero]
    by_cases h : a ≤ i ∧ i < b
    · rw [if_pos h, if_pos ⟨h.1, h.2, Nat.succ_pos _⟩]
    · rw [if_neg h, if_neg (by omega)]
  | c :: rest, i, j + 1 => by
    simp only [mapRangeAux, List.getD_cons_succ, List.length_cons]
    rw [getD_mapRangeAux f a b d rest (i + 1) j]
    by_cases h : a ≤ i + 1 + j ∧ i + 1 + j < b ∧ j < rest.length
    · rw [if_pos h, if_pos (by omega)]
    · rw [if_neg h, if_neg (by omega)]

theorem getD_mapRange (f : Char → Char) (a b : Nat) (d : Char) (l : List Char) (j : Nat) :
    (mapRange f a b l).getD j d =
      if a ≤ j ∧ j < b ∧ j < l.length then f (l.getD j d) else l.getD j d := by
  rw [mapRange, getD_mapRangeAux]
  simp

theorem length_sliceL (l : List Char) (a b : Nat) :
    (sliceL l a b).length = min (b - a) (l.length - a) := by
  simp [sliceL, List.length_take, List.length_drop]

theorem sliceL_eq_of_getD {l1 l2 : List Char} (a b : Nat) (hlen : l1.length = l2.length)
    (h : ∀ i, a ≤ i → i < b → l1.getD i spCh = l2.getD i spCh) :
    sliceL l1 a b = sliceL l2 a b := by
  apply List.ext_getElem
  · rw [length_sliceL, length_sliceL, hlen]
  · intro n h1 h2
    rw [length_sliceL] at h1
    simp only [sliceL]
    rw [List.getElem_take, List.getElem_drop, List.getElem_take, List.getElem_drop]
    have ha : a + n < l1.length := by omega
    have hb : a + n < b := by omega
    have h' := h (a + n) (Nat.le_add_right a n) hb
    rw [List.getD_eq_getElem l1 spCh ha, List.getD_eq_getElem l2 spCh (hlen ▸ ha)] at h'
    exact h'

theorem sliceL_map (f : Char → Char) (l : List Char) (a b : Nat) (hb : b ≤ l.length) :
    sliceL (mapRange f a b l) a b = (sliceL l a b).map f := by
  apply List.ext_getElem
  · rw [List.length_map, length_sliceL, length_sliceL, length_mapRange]
  · intro n h1 h2
    rw [length_sliceL, length_mapRange] at h1
    simp only [sliceL]
    rw [List.getElem_take, List.getElem_drop, List.getElem_map, List.getElem_take,
      List.getElem_drop]
    have ha : a + n < l.length := by omega
    have key : (mapRange f a b l).getD (a + n) spCh = f (l.getD (a + n) spCh) := by
      rw [getD_mapRange]
      rw [if_pos ⟨by omega, by omega, ha⟩]
    rw [List.getD_eq_getElem _ _ (by rw [length_mapRange]; exact ha),
      List.getD_eq_getElem _ _ ha] at key
    exact key

theorem sliceL_singleton (l : List Char) (a : Nat) (ha : a < l.length) :
    sliceL l a (a + 1) = [l.getD a spCh] := by
  simp only [sliceL, Nat.add_sub_cancel_left]
  rw [List.drop_eq_getElem_cons ha, List.getD_eq_getElem l spCh ha]
  rfl

/-! ### Ordering facts about the tokenizer -/

/-- Token ranges are nonempty, start at or after `m`, and are pairwise
ordered left to right. -/
def OrderedFrom : Nat → List (Nat × Nat) → Prop
  | _, [] => True
  | m, w :: ws => m ≤ w.1 ∧ w.1 < w.2 ∧ OrderedFrom w.2 ws

theorem orderedFrom_mono : ∀ {ws : List (Nat × Nat)} {m' m : Nat},
    m' ≤ m → OrderedFrom m ws → OrderedFrom m' ws
  | [], _, _, _, _ => trivial
  | _ :: _, _, _, h, ⟨h1, h2, h3⟩ => ⟨Nat.le_trans h h1, h2, h3⟩

theorem orderedFrom_mem : ∀ {ws : List (Nat × Nat)} {m : Nat} {w : Nat × Nat},
    OrderedFrom m ws → w ∈ ws → m ≤ w.1 ∧ w.1 < w.2
  | w0 :: ws, m, w, ⟨h1, h2, h3⟩, hmem => by
    rcases List.mem_cons.mp hmem with rfl | hmem'
    · exact ⟨h1, h2⟩
    · have h4 := orderedFrom_mem h3 hmem'
      exact ⟨by omega, h4.2⟩

theorem tokenizeAux_ordered (M : CharM) : ∀ (fuel k : Nat) (l : List Char),
    OrderedFrom k (tokenizeAux M fuel k l)
  | 0, _, _ => trivial
  | _ + 1, _, [] => trivial
  | fuel + 1, k, c :: rest => by
    simp only [tokenizeAux]
    by_cases h : M.isLetter c = true
    · rw [if_pos h]
      have hrun := countWhile_cons_pos rest h
      exact ⟨Nat.le_refl _, by omega, tokenizeAux_ordered M fuel _ _⟩
    · rw [if_neg h]
      exact orderedFrom_mono (Nat.le_succ k) (tokenizeAux_ordered M fuel (k + 1) rest)

theorem tokenizeAux_ub (M : CharM) : ∀ (fuel k : Nat) (l : List Char) (w : Nat × Nat),
    w ∈ tokenizeAux M fuel k l → w.2 ≤ k + l.length
  | 0, _, _, _, h => absurd h (List.not_mem_nil _)
  | _ + 1, _, [], _, h => absurd h (List.not_mem_nil _)
  | fuel + 1, k, c :: rest, w, h => by
    simp only [tokenizeAux] at h
    by_cases hc : M.isLetter c = true
    · rw [if_pos hc] at h
      have hrun := countWhile_le_length M.isLetter (c :: rest)
      rcases List.mem_cons.mp h with rfl | h'
      · simpa using hrun
      · have h2 := tokenizeAux_ub M fuel _ _ w h'
        rw [List.length_drop] at h2
        simp only [List.length_cons] at hrun h2 ⊢
        omega
    · rw [if_neg hc] at h
      have h2 := tokenizeAux_ub M fuel (k + 1) rest w h
      simp only [List.length_cons]
      omega

theorem getD_drop (l : List Char) (n m : Nat) (d : Char) :
    (l.drop n).getD m d = l.getD (n + m) d := by
  simp [List.getD_eq_getElem?_getD, List.getElem?_drop]

theorem tokenizeAux_letter (M : CharM) (d : Char) : ∀ (fuel k : Nat) (l : List Char)
    (w : Nat × Nat), w ∈ tokenizeAux M fuel k l →
    ∀ i, w.1 ≤ i → i < w.2 → M.isLetter (l.getD (i - k) d) = true
  | 0, _, _, _, h => absurd h (List.not_mem_nil _)
  | _ + 1, _, [], _, h => absurd h (List.not_mem_nil _)
  | fuel + 1, k, c :: rest, w, h => by
    simp only [tokenizeAux] at h
    by_cases hc : M.isLetter c = true
    · rw [if_pos hc] at h
      rcases List.mem_cons.mp h with rfl | h'
      · intro i h1 h2
        simp only at h1 h2
        exact countWhile_getD M.isLetter d (c :: rest) (i - k) (by omega)
      · intro i h1 h2
        have hw := orderedFrom_mem (tokenizeAux_ordered M fuel _ _) h'
        have h3 := tokenizeAux_letter M d fuel _ _ w h' i h1 h2
        rw [getD_drop] at h3
        have : countWhile M.isLetter (c :: rest) + (i - (k + countWhile M.isLetter (c :: rest))) = i - k := by
          omega
        rwa [this] at h3
    · rw [if_neg hc] at h
      intro i h1 h2
      have hw := orderedFrom_mem (tokenizeAux_ordered M fuel (k + 1) rest) h
      have h3 := tokenizeAux_letter M d fuel (k + 1) rest w h i h1 h2
      have hik : i - k = (i - (k + 1)) + 1 := by omega
      rw [hik, List.getD_cons_succ]
      exact h3

/-! ### Locality and rewrite lemmas for the word loop -/

theorem length_stepWord (M : CharM) (exc heads : String → Bool) (kal : List Char)
    (prev cur : Nat × Nat) : (stepWord M exc heads kal prev cur).length = kal.length := by
  simp only [stepWord]
  split
  · rfl
  split
  · rfl
  split
  · exact length_mapRange _ _ _ _
  · rfl

theorem getD_stepWord_outside (M : CharM) (exc heads : String → Bool) (kal : List Char)
    (prev cur : Nat × Nat) (i : Nat) (d : Char) (h : i < cur.1 ∨ cur.2 ≤ i) :
    (stepWord M exc heads kal prev cur).getD i d = kal.getD i d := by
  simp only [stepWord]
  split
  · rfl
  split
  · rfl
  split
  · rw [getD_mapRange, if_neg (by omega)]
  · rfl

theorem length_processWords (M : CharM) (exc heads : String → Bool) :
    ∀ (ws : List (Nat × Nat)) (prev : Nat × Nat) (kal : List Char),
      (processWords M exc heads prev ws kal).length = kal.length
  | [], _, _ => rfl
  | cur :: rest, prev, kal => by
    simp only [processWords]
    rw [length_processWords M exc heads rest cur _, length_stepWord]

theorem getD_processWords_outside (M : CharM) (exc heads : String → Bool) (d : Char) :
    ∀ (ws : List (Nat × Nat)) (prev : Nat × Nat) (kal : List Char) (i : Nat),
      (∀ w ∈ ws, i < w.1 ∨ w.2 ≤ i) →
      (processWords M exc heads prev ws kal).getD i d = kal.getD i d
  | [], _, _, _, _ => rfl
  | cur :: rest, prev, kal, i, h => by
    simp only [processWords]
    rw [getD_processWords_outside M exc heads d rest cur _ i
        (fun w hw => h w (List.mem_cons_of_mem _ hw)),
      getD_stepWord_outside M exc heads kal prev cur i d (h cur (List.mem_cons_self _ _))]

theorem getD_processWords_cases (M : CharM) (exc heads : String → Bool) (d : Char) :
    ∀ (ws : List (Nat × Nat)) (m : Nat) (prev : Nat × Nat) (kal : List Char) (i : Nat),
      OrderedFrom m ws →
      (processWords M exc heads prev ws kal).getD i d = kal.getD i d ∨
        (processWords M exc heads prev ws kal).getD i d = M.toLower (kal.getD i d)
  | [], _, _, _, _, _ => Or.inl rfl
  | cur :: rest, m, prev, kal, i, ho => by
    obtain ⟨h1, h2, h3⟩ := ho
    simp only [processWords]
    by_cases hmem : ∃ w ∈ rest, w.1 ≤ i ∧ i < w.2
    · obtain ⟨w, hw, hwi⟩ := hmem
      have hcur2 : cur.2 ≤ i := by
        have := orderedFrom_mem h3 hw
        omega
      have hstep := getD_stepWord_outside M exc heads kal prev cur i d (Or.inr hcur2)
      have hrec := getD_processWords_cases M exc heads d rest cur.2 cur
        (stepWord M exc heads kal prev cur) i h3
      rw [hstep] at hrec
      exact hrec
    · push_neg at hmem
      have houts : ∀ w ∈ rest, i < w.1 ∨ w.2 ≤ i := by
        intro w hw
        have := hmem w hw
        omega
      rw [getD_processWords_outside M exc heads d rest cur _ i houts]
      simp only [stepWord]
      split
      · exact Or.inl rfl
      split
      · exact Or.inl rfl
      split
      · rw [getD_mapRange]
        split
        · exact Or.inr rfl
        · exact Or.inl rfl
      · exact Or.inl rfl

theorem getD_processWords_nonletter (M : CharM) (exc heads : String → Bool) (d : Char) :
    ∀ (ws : List (Nat × Nat)) (m : Nat) (prev : Nat × Nat) (kal : List Char) (i : Nat),
      OrderedFrom m ws →
      (∀ w ∈ ws, ∀ j, w.1 ≤ j → j < w.2 → M.isLetter (kal.getD j d) = true) →
      M.isLetter (kal.getD i d) = false →
      (processWords M exc heads prev ws kal).getD i d = kal.getD i d
  | [], _, _, _, _, _, _, _ => rfl
  | cur :: rest, m, prev, kal, i, ho, hlet, hnl => by
    obtain ⟨h1, h2, h3⟩ := ho
    simp only [processWords]
    have hout : i < cur.1 ∨ cur.2 ≤ i := by
      by_contra hc
      push_neg at hc
      have hl := hlet cur (List.mem_cons_self _ _) i (by omega) (by omega)
      rw [hl] at hnl
      cases hnl
    have hstep := getD_stepWord_outside M exc heads kal prev cur i d hout
    have hlet' : ∀ w ∈ rest, ∀ j, w.1 ≤ j → j < w.2 →
        M.isLetter ((stepWord M exc heads kal prev cur).getD j d) = true := by
      intro w hw j hj1 hj2
      have hwm := orderedFrom_mem h3 hw
      rw [getD_stepWord_outside M exc heads kal prev cur j d (Or.inr (by omega))]
      exact hlet w (List.mem_cons_of_mem _ hw) j hj1 hj2
    have hnl' : M.isLetter ((stepWord M exc heads kal prev cur).getD i d) = false := by
      rw [hstep]
      exact hnl
    rw [getD_processWords_nonletter M exc heads d rest cur.2 cur _ i h3 hlet' hnl', hstep]

theorem processWords_skip (M : CharM) (exc heads : String → Bool) :
    ∀ (ws : List (Nat × Nat)) (m : Nat) (prev : Nat × Nat) (kal : List Char) (w : Nat × Nat),
      OrderedFrom m ws → w ∈ ws →
      (isAllCaps M (sliceL kal w.1 w.2) = true ∨
        exc (String.mk (sliceL kal w.1 w.2)) = true) →
      sliceL (processWords M exc heads prev ws kal) w.1 w.2 = sliceL kal w.1 w.2
  | [], _, _, _, _, _, hmem, _ => absurd hmem (List.not_mem_nil _)
  | cur :: rest, m, prev, kal, w, ho, hmem, hsk => by
    obtain ⟨h1, h2, h3⟩ := ho
    rcases List.mem_cons.mp hmem with rfl | hmem'
    · have hcond : (isAllCaps M (sliceL kal w.1 w.2) ||
          exc (String.mk (sliceL kal w.1 w.2))) = true := by
        rcases hsk with h | h <;> simp [h]
      simp only [processWords, stepWord]
      rw [if_pos hcond]
      exact sliceL_eq_of_getD w.1 w.2 (length_processWords M exc heads rest w kal)
        (fun i hi1 hi2 => getD_processWords_outside M exc heads spCh rest w kal i
          (fun w' hw' => Or.inl (by
            have := orderedFrom_mem h3 hw'
            omega)))
    · have hw' := orderedFrom_mem h3 hmem'
      have hse : sliceL (stepWord M exc heads kal prev cur) w.1 w.2 = sliceL kal w.1 w.2 :=
        sliceL_eq_of_getD w.1 w.2 (length_stepWord M exc heads kal prev cur)
          (fun i hi1 hi2 =>
            getD_stepWord_outside M exc heads kal prev cur i spCh (Or.inr (by omega)))
      have hsk' : isAllCaps M (sliceL (stepWord M exc heads kal prev cur) w.1 w.2) = true ∨
          exc (String.mk (sliceL (stepWord M exc heads kal prev cur) w.1 w.2)) = true := by
        rw [hse]
        exact hsk
      simp only [processWords]
      rw [processWords_skip M exc heads rest cur.2 cur _ w h3 hmem' hsk', hse]

theorem processWords_headProtect (M : CharM) (exc heads : String → Bool) :
    ∀ (pre : List (Nat × Nat)) (m : Nat) (prev : Nat × Nat) (kal : List Char)
      (hd s1 s2 : Nat × Nat) (post : List (Nat × Nat)),
      OrderedFrom m (pre ++ hd :: s1 :: s2 :: post) →
      s2.2 ≤ kal.length →
      isAllCaps M (sliceL kal hd.1 hd.2) = true →
      heads (String.mk (sliceL kal hd.1 hd.2)) = true →
      isAllCaps M (sliceL kal s2.1 s2.2) = false →
      exc (String.mk (sliceL kal s2.1 s2.2)) = false →
      heads (String.mk (sliceL kal s1.1 s1.2)) = false →
      isTitleCase M (sliceL kal s2.1 s2.2) = true →
      sliceL (processWords M exc heads prev (pre ++ hd :: s1 :: s2 :: post) kal) s1.1 s1.2 =
          sliceL kal s1.1 s1.2 ∧
        sliceL (processWords M exc heads prev (pre ++ hd :: s1 :: s2 :: post) kal) s2.1 s2.2 =
          (sliceL kal s2.1 s2.2).map M.toLower
  | [], m, prev, kal, hd, s1, s2, post, ho, hlen, hAC, hHd, hA2, hE2, hH1, hT2 => by
    obtain ⟨hm, hh, h12, hs1, h23, hs2, hpost⟩ := ho
    simp only [List.nil_append, processWords]
    have e1 : stepWord M exc heads kal prev hd = kal := by
      simp only [stepWord]
      rw [if_pos (by simp [hAC])]
    have e2 : stepWord M exc heads kal hd s1 = kal := by
      simp only [stepWord]
      by_cases hc : (isAllCaps M (sliceL kal s1.1 s1.2) ||
          exc (String.mk (sliceL kal s1.1 s1.2))) = true
      · rw [if_pos hc]
      · rw [if_neg hc, if_pos hHd]
    have e3 : stepWord M exc heads kal s1 s2 = mapRange M.toLower s2.1 s2.2 kal := by
      simp only [stepWord]
      rw [if_neg (by simp [hA2, hE2]), if_neg (by simp [hH1]), if_pos hT2]
    rw [e1, e2, e3]
    constructor
    · have p1 : sliceL (processWords M exc heads s2 post
          (mapRange M.toLower s2.1 s2.2 kal)) s1.1 s1.2 =
          sliceL (mapRange M.toLower s2.1 s2.2 kal) s1.1 s1.2 :=
        sliceL_eq_of_getD s1.1 s1.2 (length_processWords M exc heads post s2 _)
          (fun i hi1 hi2 => getD_processWords_outside M exc heads spCh post s2 _ i
            (fun w hw => Or.inl (by
              have := orderedFrom_mem hpost hw
              omega)))
      have p2 : sliceL (mapRange M.toLower s2.1 s2.2 kal) s1.1 s1.2 = sliceL kal s1.1 s1.2 :=
        sliceL_eq_of_getD s1.1 s1.2 (length_mapRange M.toLower s2.1 s2.2 kal)
          (fun i hi1 hi2 => by rw [getD_mapRange, if_neg (by omega)])
      exact p1.trans p2
    · have q1 : sliceL (processWords M exc heads s2 post
          (mapRange M.toLower s2.1 s2.2 kal)) s2.1 s2.2 =
          sliceL (mapRange M.toLower s2.1 s2.2 kal) s2.1 s2.2 :=
        sliceL_eq_of_getD s2.1 s2.2 (length_processWords M exc heads post s2 _)
          (fun i hi1 hi2 => getD_processWords_outside M exc heads spCh post s2 _ i
            (fun w hw => Or.inl (by
              have := orderedFrom_mem hpost hw
              omega)))
      exact q1.trans (sliceL_map M.toLower kal s2.1 s2.2 hlen)
  | q :: pre', m, prev, kal, hd, s1, s2, post, ho, hlen, hAC, hHd, hA2, hE2, hH1, hT2 => by
    obtain ⟨hq1, hq2, hrest⟩ := ho
    have hmemh : hd ∈ pre' ++ hd :: s1 :: s2 :: post := by simp
    have hmem1 : s1 ∈ pre' ++ hd :: s1 :: s2 :: post := by simp
    have hmem2 : s2 ∈ pre' ++ hd :: s1 :: s2 :: post := by simp
    have hbh := orderedFrom_mem hrest hmemh
    have hb1 := orderedFrom_mem hrest hmem1
    have hb2 := orderedFrom_mem hrest hmem2
    have eh : sliceL (stepWord M exc heads kal prev q) hd.1 hd.2 = sliceL kal hd.1 hd.2 :=
      sliceL_eq_of_getD hd.1 hd.2 (length_stepWord M exc heads kal prev q)
        (fun i hi1 hi2 =>
          getD_stepWord_outside M exc heads kal prev q i spCh (Or.inr (by omega)))
    have e1 : sliceL (stepWord M exc heads kal prev q) s1.1 s1.2 = sliceL kal s1.1 s1.2 :=
      sliceL_eq_of_getD s1.1 s1.2 (length_stepWord M exc heads kal prev q)
        (fun i hi1 hi2 =>
          getD_stepWord_outside M exc heads kal prev q i spCh (Or.inr (by omega)))
    have e2 : sliceL (stepWord M exc heads kal prev q) s2.1 s2.2 = sliceL kal s2.1 s2.2 :=
      sliceL_eq_of_getD s2.1 s2.2 (length_stepWord M exc heads kal prev q)
        (fun i hi1 hi2 =>
          getD_stepWord_outside M exc heads kal prev q i spCh (Or.inr (by omega)))
    have hrec := processWords_headProtect M exc heads pre' q.2 q
      (stepWord M exc heads kal prev q) hd s1 s2 post hrest
      (by rw [length_stepWord]; exact hlen)
      (by rw [eh]; exact hAC) (by rw [eh]; exact hHd)
      (by rw [e2]; exact hA2) (by rw [e2]; exact hE2)
      (by rw [e1]; exact hH1) (by rw [e2]; exact hT2)
    simp only [List.cons_append, processWords]
    refine ⟨hrec.1.trans e1, hrec.2.trans ?_⟩
    rw [e2]

/-! ### Pointwise to `Forall₂` transfer -/

theorem forall2_of_getD {R : Char → Char → Prop} :
    ∀ (l1 l2 : List Char), l1.length = l2.length →
      (∀ i, i < l1.length → R (l1.getD i spCh) (l2.getD i spCh)) → List.Forall₂ R l1 l2
  | [], [], _, _ => List.Forall₂.nil
  | [], _ :: _, h, _ => by simp at h
  | _ :: _, [], h, _ => by simp at h
  | a :: l1, b :: l2, h, hp =>
    List.Forall₂.cons (by simpa using hp 0 (Nat.succ_pos _))
      (forall2_of_getD l1 l2 (by simpa using h)
        (fun i hi => by simpa using hp (i + 1) (by simpa using hi)))

theorem forall2_refl_of {R : Char → Char → Prop} (hR : ∀ a, R a a) (l : List Char) :
    List.Forall₂ R l l :=
  List.forall₂_same.mpr (fun x _ => hR x)

/-! ### Per-sentence facts -/

theorem length_decapSentence (M : CharM) (exc heads : String → Bool) (kal : List Char) :
    (decapSentence M exc heads kal).length = kal.length := by
  simp only [decapSentence]
  split
  · rfl
  · exact length_processWords M exc heads _ _ kal

theorem tokenize_ordered (M : CharM) (kal : List Char) :
    OrderedFrom 0 (tokenize M kal) :=
  tokenizeAux_ordered M kal.length 0 kal

theorem tokenize_ub (M : CharM) (kal : List Char) (w : Nat × Nat)
    (h : w ∈ tokenize M kal) : w.2 ≤ kal.length := by
  have := tokenizeAux_ub M kal.length 0 kal w h
  simpa using this

theorem tokenize_letter (M : CharM) (kal : List Char) (w : Nat × Nat)
    (h : w ∈ tokenize M kal) (i : Nat) (h1 : w.1 ≤ i) (h2 : i < w.2) :
    M.isLetter (kal.getD i spCh) = true := by
  have := tokenizeAux_letter M spCh kal.length 0 kal w h i h1 h2
  simpa using this

theorem decapSentence_forall2_ok (M : CharM) (exc heads : String → Bool) (kal : List Char) :
    List.Forall₂ (fun a b => b = a ∨ b = M.toLower a) kal (decapSentence M exc heads kal) := by
  apply forall2_of_getD _ _ (length_decapSentence M exc heads kal).symm
  intro i hi
  simp only [decapSentence]
  split
  · exact Or.inl rfl
  · rename_i w0 rest htok
    have ho : OrderedFrom 0 (w0 :: rest) := by
      have h0 := tokenize_ordered M kal
      rwa [htok] at h0
    exact getD_processWords_cases M exc heads spCh rest w0.2 w0 kal i ho.2.2

theorem decapSentence_forall2_nonletter (M : CharM) (exc heads : String → Bool)
    (kal : List Char) :
    List.Forall₂ (fun a b => M.isLetter a = false → b = a) kal
      (decapSentence M exc heads kal) := by
  apply forall2_of_getD _ _ (length_decapSentence M exc heads kal).symm
  intro i hi
  intro hnl
  simp only [decapSentence]
  split
  · rfl
  · rename_i w0 rest htok
    have ho : OrderedFrom 0 (w0 :: rest) := by
      have h0 := tokenize_ordered M kal
      rwa [htok] at h0
    refine getD_processWords_nonletter M exc heads spCh rest w0.2 w0 kal i ho.2.2 ?_ hnl
    intro w hw j hj1 hj2
    refine tokenize_letter M kal w ?_ j hj1 hj2
    rw [htok]
    exact List.mem_cons_of_mem _ hw

/-! ### The sentence loop -/

theorem decapAux_succ_cons (M : CharM) (exc heads : String → Bool) (fuel : Nat)
    (c : Char) (t0 : List Char) :
    decapAux M exc heads (fuel + 1) (c :: t0) =
      (match (c :: t0).dropWhile (fun x => !isSentenceEndCh x) with
        | [] => decapSentence M exc heads ((c :: t0).takeWhile (fun x => !isSentenceEndCh x))
        | d :: t =>
          decapSentence M exc heads ((c :: t0).takeWhile (fun x => !isSentenceEndCh x)) ++
            d :: (t.takeWhile M.isSpace ++ decapAux M exc heads fuel (t.dropWhile M.isSpace))) :=
  rfl

theorem decapAux_forall2 (M : CharM) (exc heads : String → Bool) (R : Char → Char → Prop)
    (hR : ∀ a, R a a)
    (hsent : ∀ kal, List.Forall₂ R kal (decapSentence M exc heads kal)) :
    ∀ (fuel : Nat) (s : List Char), List.Forall₂ R s (decapAux M exc heads fuel s)
  | 0, s => forall2_refl_of hR s
  | _ + 1, [] => List.Forall₂.nil
  | fuel + 1, c :: t0 => by
    rw [decapAux_succ_cons]
    cases hrest : (c :: t0).dropWhile (fun x => !isSentenceEndCh x) with
    | nil =>
      have hkal : (c :: t0).takeWhile (fun x => !isSentenceEndCh x) = c :: t0 := by
        have h2 := List.takeWhile_append_dropWhile (fun x => !isSentenceEndCh x) (c :: t0)
        rw [hrest, List.append_nil] at h2
        exact h2
      rw [hkal]
      exact hsent (c :: t0)
    | cons d t =>
      have hs : c :: t0 = (c :: t0).takeWhile (fun x => !isSentenceEndCh x) ++
          d :: (t.takeWhile M.isSpace ++ t.dropWhile M.isSpace) := by
        conv_lhs => rw [← List.takeWhile_append_dropWhile (fun x => !isSentenceEndCh x) (c :: t0)]
        rw [hrest, List.takeWhile_append_dropWhile]
      have main : List.Forall₂ R
          ((c :: t0).takeWhile (fun x => !isSentenceEndCh x) ++
            d :: (t.takeWhile M.isSpace ++ t.dropWhile M.isSpace))
          (decapSentence M exc heads ((c :: t0).takeWhile (fun x => !isSentenceEndCh x)) ++
            d :: (t.takeWhile M.isSpace ++
              decapAux M exc heads fuel (t.dropWhile M.isSpace))) :=
        List.rel_append (hsent _)
          (List.Forall₂.cons (hR d)
            (List.rel_append (forall2_refl_of hR _)
              (decapAux_forall2 M exc heads R hR hsent fuel _)))
      nth_rewrite 1 [hs]
      exact main

/-- Shared helper: a token whose original text is ALL-CAPS or an exact
exception is left unchanged by the per-sentence engine. -/
theorem decapSentence_skipTok (M : CharM) (exc heads : String → Bool) (kal : List Char)
    (w : Nat × Nat) (hmem : w ∈ tokenize M kal)
    (hsk : isAllCaps M (sliceL kal w.1 w.2) = true ∨
      exc (String.mk (sliceL kal w.1 w.2)) = true) :
    sliceL (decapSentence M exc heads kal) w.1 w.2 = sliceL kal w.1 w.2 := by
  cases htok : tokenize M kal with
  | nil =>
    rw [htok] at hmem
    exact absurd hmem (List.not_mem_nil _)
  | cons w0 rest =>
    rw [htok] at hmem
    have ho : OrderedFrom 0 (w0 :: rest) := by
      have h0 := tokenize_ordered M kal
      rwa [htok] at h0
    simp only [decapSentence, htok]
    rcases List.mem_cons.mp hmem with rfl | hmem'
    · exact sliceL_eq_of_getD w.1 w.2 (length_processWords M exc heads rest w kal)
        (fun i hi1 hi2 => getD_processWords_outside M exc heads spCh rest w kal i
          (fun w' hw' => Or.inl (by
            have := orderedFrom_mem ho.2.2 hw'
            omega)))
    · exact processWords_skip M exc heads rest w0.2 w0 kal w ho.2.2 hmem' hsk

/-! ### Claim theorems -/

/-- Claim C4 (confirmed): for every sentence the decapitalization engine
never rewrites the word token at index 0, regardless of its case shape:
the slice of the engine's per-sentence output at token 0's range equals
the corresponding slice of the input (`decapSentence` is the engine's
per-sentence pass; the sentence loop copies delimiters and whitespace
verbatim). -/
theorem c4_firstWordUntouched (M : CharM) (exc heads : String → Bool)
    (kal : List Char) (w0 : Nat × Nat) (ws : List (Nat × Nat))
    (htok : tokenize M kal = w0 :: ws) :
    sliceL (decapSentence M exc heads kal) w0.1 w0.2 = sliceL kal w0.1 w0.2 := by
  have ho : OrderedFrom 0 (w0 :: ws) := by
    have h0 := tokenize_ordered M kal
    rwa [htok] at h0
  simp only [decapSentence, htok]
  exact sliceL_eq_of_getD w0.1 w0.2 (length_processWords M exc heads ws w0 kal)
    (fun i hi1 hi2 => getD_processWords_outside M exc heads spCh ws w0 kal i
      (fun w hw => Or.inl (by
        have := orderedFrom_mem ho.2.2 hw
        omega)))

/-- Witness for C4 at the concrete sentence `"Ab Cd"`. -/
theorem c4_firstWordUntouched_witness :
    sliceL (decapSentence asciiM defaultExceptions protectedHeads ("Ab Cd".toList)) 0 2 =
      sliceL ("Ab Cd".toList) 0 2 :=
  c4_firstWordUntouched asciiM defaultExceptions protectedHeads ("Ab Cd".toList)
    (0, 2) [(3, 5)] (by decide)

/-- Claim C5 (confirmed): every word token whose letters are all
uppercase (at least one letter — tokens are nonempty letter runs, and
`isAllCaps` is exactly that test) is left unchanged by the engine, at
any index of any sentence. -/
theorem c5_allCapsUntouched (M : CharM) (exc heads : String → Bool) (kal : List Char)
    (w : Nat × Nat) (hmem : w ∈ tokenize M kal)
    (hac : isAllCaps M (sliceL kal w.1 w.2) = true) :
    sliceL (decapSentence M exc heads kal) w.1 w.2 = sliceL kal w.1 w.2 :=
  decapSentence_skipTok M exc heads kal w hmem (Or.inl hac)

/-- Witness for C5 at the acronym `"ATM"` mid-sentence. -/
theorem c5_allCapsUntouched_witness :
    sliceL (decapSentence asciiM defaultExceptions protectedHeads ("dia ATM itu".toList)) 4 7 =
      sliceL ("dia ATM itu".toList) 4 7 :=
  c5_allCapsUntouched asciiM defaultExceptions protectedHeads ("dia ATM itu".toList)
    (4, 7) (by decide) (by decide)

/-- Claim C6 (confirmed): every word token whose exact text is in the
exception set (exact, case-sensitive string equality) is left unchanged
by the engine, regardless of position and neighbors. -/
theorem c6_exceptionUntouched (M : CharM) (exc heads : String → Bool) (kal : List Char)
    (w : Nat × Nat) (hmem : w ∈ tokenize M kal)
    (hexc : exc (String.mk (sliceL kal w.1 w.2)) = true) :
    sliceL (decapSentence M exc heads kal) w.1 w.2 = sliceL kal w.1 w.2 :=
  decapSentence_skipTok M exc heads kal w hmem (Or.inr hexc)

/-- Witness for C6 at the exception word `"Jakarta"` mid-sentence. -/
theorem c6_exceptionUntouched_witness :
    sliceL (decapSentence asciiM defaultExceptions protectedHeads
        ("kota Jakarta ok".toList)) 5 12 =
      sliceL ("kota Jakarta ok".toList) 5 12 :=
  c6_exceptionUntouched asciiM defaultExceptions protectedHeads ("kota Jakarta ok".toList)
    (5, 12) (by decide) (by decide)

/-- Counterexample to claim C3 as stated: in `"kata A kata"` the token
`"A"` at word index 1 is a single uppercase letter, is not an exception,
and does not follow a protected head, yet the engine leaves it unchanged
(it is classified ALL-CAPS, which is checked before TitleCase), instead
of rewriting it to lowercase as the claim asserts. -/
theorem c3_counterexampleSingleUpper :
    tokenize asciiM ("kata A kata".toList) = [(0, 4), (5, 6), (7, 11)] ∧
      defaultExceptions "A" = false ∧
      protectedHeads "kata" = false ∧
      decapitalizeMidSentence asciiM defaultExceptions protectedHeads
          ("kata A kata".toList) = "kata A kata".toList ∧
      sliceL (decapitalizeMidSentence asciiM defaultExceptions protectedHeads
          ("kata A kata".toList)) 5 6 = "A".toList ∧
      "A".toList ≠ "a".toList :=
  ⟨by decide, by decide, by decide, by decide, by decide, by decide⟩

/-- Claim C3 as amended: a word token that is a single uppercase letter
also satisfies the ALL-CAPS test, which short-circuits first, so the
engine leaves it unchanged (it is not lowered), at any index. -/
theorem c3_singleUpperUnchanged (M : CharM) (exc heads : String → Bool) (kal : List Char)
    (w : Nat × Nat) (hmem : w ∈ tokenize M kal) (hw : w.2 = w.1 + 1)
    (hup : M.isUpper (kal.getD w.1 spCh) = true) :
    isAllCaps M (sliceL kal w.1 w.2) = true ∧
      sliceL (decapSentence M exc heads kal) w.1 w.2 = sliceL kal w.1 w.2 := by
  have hub := tokenize_ub M kal w hmem
  have hlt : w.1 < kal.length := by omega
  have hlet : M.isLetter (kal.getD w.1 spCh) = true :=
    tokenize_letter M kal w hmem w.1 (Nat.le_refl _) (by omega)
  have hac : isAllCaps M (sliceL kal w.1 w.2) = true := by
    rw [hw, sliceL_singleton kal w.1 hlt]
    simp only [isAllCaps, isAllCapsAux, hlet, hup, if_true]
  exact ⟨hac, decapSentence_skipTok M exc heads kal w hmem (Or.inl hac)⟩

/-- Witness for the amended C3 at `"kata A kata"`, token `(5, 6)`. -/
theorem c3_singleUpperUnchanged_witness :
    isAllCaps asciiM (sliceL ("kata A kata".toList) 5 6) = true ∧
      sliceL (decapSentence asciiM defaultExceptions protectedHeads
          ("kata A kata".toList)) 5 6 =
        sliceL ("kata A kata".toList) 5 6 :=
  c3_singleUpperUnchanged asciiM defaultExceptions protectedHeads ("kata A kata".toList)
    (5, 6) (by decide) rfl (by decide)

/-- Counterexample to claim C1 as stated: in `"x Jalan Sudirman"` the
token at word index 1 has exact text `"Jalan"`, which is in the
protected-head set, yet the TitleCase token `"Sudirman"` at index 2 is
lowered: the engine lowers `"Jalan"` itself first (index 1 > 0, not
protected), and the protection check for index 2 reads the already
rewritten text `"jalan"`, which is not a head. -/
theorem c1_counterexampleHeadLowered :
    protectedHeads "Jalan" = true ∧
      tokenize asciiM ("x Jalan Sudirman".toList) = [(0, 1), (2, 7), (8, 16)] ∧
      sliceL ("x Jalan Sudirman".toList) 2 7 = "Jalan".toList ∧
      isTitleCase asciiM (sliceL ("x Jalan Sudirman".toList) 8 16) = true ∧
      decapitalizeMidSentence asciiM defaultExceptions protectedHeads
          ("x Jalan Sudirman".toList) = "x jalan sudirman".toList ∧
      sliceL (decapitalizeMidSentence asciiM defaultExceptions protectedHeads
          ("x Jalan Sudirman".toList)) 8 16 ≠ sliceL ("x Jalan Sudirman".toList) 8 16 :=
  ⟨by decide, by decide, by decide, by decide, by decide, by decide⟩

/-- Claim C1 as amended: a protected-head token at index i > 0 protects
the token at index i+1 provided the engine leaves the head itself
unchanged at its own step — in particular when the head is ALL-CAPS
(the heads `PT`, `CV`, `RS`); the successor token is then left unchanged
whatever its shape, while the token at index i+2 is not protected: if it
is TitleCase, not ALL-CAPS, not an exception, and the (unchanged) text
of token i+1 is not itself a head, token i+2 is lowered. -/
theorem c1_headProtection (M : CharM) (exc heads : String → Bool) (kal : List Char)
    (p0 : Nat × Nat) (pre : List (Nat × Nat)) (hd s1 s2 : Nat × Nat)
    (post : List (Nat × Nat))
    (htok : tokenize M kal = p0 :: (pre ++ hd :: s1 :: s2 :: post))
    (hAC : isAllCaps M (sliceL kal hd.1 hd.2) = true)
    (hHd : heads (String.mk (sliceL kal hd.1 hd.2)) = true)
    (hA2 : isAllCaps M (sliceL kal s2.1 s2.2) = false)
    (hE2 : exc (String.mk (sliceL kal s2.1 s2.2)) = false)
    (hH1 : heads (String.mk (sliceL kal s1.1 s1.2)) = false)
    (hT2 : isTitleCase M (sliceL kal s2.1 s2.2) = true) :
    sliceL (decapSentence M exc heads kal) s1.1 s1.2 = sliceL kal s1.1 s1.2 ∧
      sliceL (decapSentence M exc heads kal) s2.1 s2.2 =
        (sliceL kal s2.1 s2.2).map M.toLower := by
  have ho : OrderedFrom 0 (p0 :: (pre ++ hd :: s1 :: s2 :: post)) := by
    have h0 := tokenize_ordered M kal
    rwa [htok] at h0
  have hs2mem : s2 ∈ tokenize M kal := by
    rw [htok]
    simp
  have hlen := tokenize_ub M kal s2 hs2mem
  simp only [decapSentence, htok]
  exact processWords_headProtect M exc heads pre p0.2 p0 kal hd s1 s2 post ho.2.2 hlen
    hAC hHd hA2 hE2 hH1 hT2

/-- Witness for the amended C1 at `"kata PT Maju Jaya"`: the ALL-CAPS
head `PT` at index 1 protects `Maju`, and `Jaya` at index 3 is lowered. -/
theorem c1_headProtection_witness :
    sliceL (decapSentence asciiM defaultExceptions protectedHeads
        ("kata PT Maju Jaya".toList)) 8 12 =
      sliceL ("kata PT Maju Jaya".toList) 8 12 ∧
      sliceL (decapSentence asciiM defaultExceptions protectedHeads
          ("kata PT Maju Jaya".toList)) 13 17 =
        (sliceL ("kata PT Maju Jaya".toList) 13 17).map asciiM.toLower :=
  c1_headProtection asciiM defaultExceptions protectedHeads ("kata PT Maju Jaya".toList)
    (0, 4) [] (5, 7) (8, 12) (13, 17) [] (by decide) (by decide) (by decide)
    (by decide) (by decide) (by decide) (by decide)

/-- Claim C10 (confirmed): `decapitalizeMidSentence` returns a string of
exactly the same rune length in which every rune is either identical to
the corresponding input rune or the `ToLower` image of it; moreover every
position holding a non-letter (digit, punctuation, whitespace) is copied
through unchanged. -/
theorem c10_frameEffect (M : CharM) (exc heads : String → Bool) (s : List Char) :
    (decapitalizeMidSentence M exc heads s).length = s.length ∧
      List.Forall₂ (fun a b => b = a ∨ b = M.toLower a) s
        (decapitalizeMidSentence M exc heads s) ∧
      List.Forall₂ (fun a b => M.isLetter a = false → b = a) s
        (decapitalizeMidSentence M exc heads s) := by
  have h1 : List.Forall₂ (fun a b => b = a ∨ b = M.toLower a) s
      (decapitalizeMidSentence M exc heads s) :=
    decapAux_forall2 M exc heads _ (fun _ => Or.inl rfl)
      (decapSentence_forall2_ok M exc heads) s.length s
  have h2 : List.Forall₂ (fun a b => M.isLetter a = false → b = a) s
      (decapitalizeMidSentence M exc heads s) :=
    decapAux_forall2 M exc heads _ (fun _ _ => rfl)
      (decapSentence_forall2_nonletter M exc heads) s.length s
  exact ⟨h1.length_eq.symm, h1, h2⟩

/-- Claim C9 (confirmed): `IsSentenceCapitalized` returns `true` on
empty or whitespace-only input (those whose `TrimSpace` is empty), and
otherwise returns exactly the uppercase test of the first letter
character of the trimmed text (skipping leading non-letters, which is
what `firstLetterIndex` does). -/
theorem c9_isSentenceCapitalized (M : CharM) (s : List Char) :
    (trimSpace M s = [] → IsSentenceCapitalized M s = true) ∧
      ∀ i, firstLetterIndex M (trimSpace M s) 0 = some i →
        IsSentenceCapitalized M s = M.isUpper ((trimSpace M s).getD i spCh) := by
  constructor
  · intro h
    simp only [IsSentenceCapitalized]
    rw [if_pos h]
  · intro i h
    have ht : ¬trimSpace M s = [] := by
      intro hc
      rw [hc] at h
      simp [firstLetterIndex, firstLetterFrom] at h
    simp only [IsSentenceCapitalized]
    rw [if_neg ht, h]

/-- Witness for C9 at `"  7Ab"`: the first letter (after the digit) is
the uppercase `A`, so the function returns `true`. -/
theorem c9_isSentenceCapitalized_witness :
    IsSentenceCapitalized asciiM ("  7Ab".toList) = true :=
  ((c9_isSentenceCapitalized asciiM ("  7Ab".toList)).2 1 (by decide)).trans (by decide)

/-- Claim C2 (code bug): on `"Hai luqmanul hakim,"` the greeting rule
alone produces the documented `"Hai Luqmanul Hakim,"`, but the full
pipeline returns `"Hai Luqmanul hakim,"`: the decapitalization engine
runs afterwards and lowers `"Hakim"`, because `"Hai"` protects only the
immediately following token, contradicting the claimed (and documented)
pipeline output. -/
theorem c2_greetingPipeline :
    SanitizeToPUEBI asciiM ("Hai luqmanul hakim,".toList) =
        "Hai Luqmanul hakim,".toList ∧
      fixGreetingNameCase asciiM ("Hai luqmanul hakim,".toList) =
        "Hai Luqmanul Hakim,".toList :=
  ⟨by decide, by decide⟩

/-- Counterexample to claim C7 as stated: `SanitizeToPUEBI` is not
idempotent on `"x Dirumah"`: the first run lowers `"Dirumah"` to
`"dirumah"`, and the second run's preposition fixer then splits it to
`"di rumah"`. -/
theorem c7_counterexampleNotIdempotent :
    SanitizeToPUEBI asciiM (SanitizeToPUEBI asciiM ("x Dirumah".toList)) ≠
      SanitizeToPUEBI asciiM ("x Dirumah".toList) := by
  decide

/-- Claim C7 as amended: idempotence holds on the spec's representative
scenario inputs (scenario 1 and scenario 2), though not for every input. -/
theorem c7_idempotentOnScenarios :
    SanitizeToPUEBI asciiM (SanitizeToPUEBI asciiM ("Hai luqmanul hakim,".toList)) =
        SanitizeToPUEBI asciiM ("Hai luqmanul hakim,".toList) ∧
      SanitizeToPUEBI asciiM (SanitizeToPUEBI asciiM
          ("...Transfer Real Time dari rekening 1023613267 sejumlah Rp 12.000....".toList)) =
        SanitizeToPUEBI asciiM
          ("...Transfer Real Time dari rekening 1023613267 sejumlah Rp 12.000....".toList) :=
  ⟨by decide, by decide⟩

/-- Counterexample to claim C8 as stated: on the literal scenario-2
input the output does not contain the lowered phrase
`"transfer real time"`: the three leading dots are sentence terminators,
so `"Transfer"` is sentence-initial and is re-capitalized by
`capitalizeSentences` after `normalizeRealTime` lowered it. -/
theorem c8_counterexampleScenario2 :
    SanitizeToPUEBI asciiM
        ("...Transfer Real Time dari rekening 1023613267 sejumlah Rp 12.000....".toList) =
      "... Transfer real time dari rekening 1023613267 sejumlah Rp12.000 ...".toList ∧
      containsSub ("transfer real time".toList)
        (SanitizeToPUEBI asciiM
          ("...Transfer Real Time dari rekening 1023613267 sejumlah Rp 12.000....".toList)) =
        false :=
  ⟨by decide, by decide⟩

/-- Claim C8 as amended: on the literal scenario-2 input the phrase
appears as `"Transfer real time"` (`"Real Time"` lowered, `"Transfer"`
sentence-initial after the leading ellipsis and hence capitalized) and
the currency appears as `"Rp12.000"` with no space between `Rp` and the
digits. -/
theorem c8_scenario2Output :
    containsSub ("Transfer real time".toList)
        (SanitizeToPUEBI asciiM
          ("...Transfer Real Time dari rekening 1023613267 sejumlah Rp 12.000....".toList)) =
        true ∧
      containsSub ("Rp12.000".toList)
        (SanitizeToPUEBI asciiM
          ("...Transfer Real Time dari rekening 1023613267 sejumlah Rp 12.000....".toList)) =
        true ∧
      containsSub ("Rp 12.000".toList)
        (SanitizeToPUEBI asciiM
          ("...Transfer Real Time dari rekening 1023613267 sejumlah Rp 12.000....".toList)) =
        false :=
  ⟨by decide, by decide, by decide⟩
